import Mathlib

/-!
Verification of the dining-philosophers program in `src/main.cpp`.

The program runs `NUM_PHILOSOPHERS = 5` threads; philosopher `i` loops
forever: think, become hungry, acquire two binary semaphores
(`chopsticks[leftChopstick]` with `leftChopstick = i` and
`chopsticks[rightChopstick]` with `rightChopstick = (i+1) % NUM_PHILOSOPHERS`)
in a parity-dependent order (even ids take the right one first, odd ids the
left one first), eat, then release left and right.

We embed the program as an interleaving transition system: the state carries
one control location (`Phase`) per philosopher thread and one availability
bit per binary semaphore; a `step` of thread `i` performs the next atomic
operation of the loop body, and acquisition of an unavailable semaphore
blocks (`step` returns `none`).  The number of philosophers is kept as a
parameter `N` (the program fixes `N = 5`).
-/

/-- `constexpr int NUM_PHILOSOPHERS = 5` (`src/main.cpp` line 40). -/
def NUM_PHILOSOPHERS : Nat := 5

/-- Think duration in milliseconds (`src/main.cpp` line 96). -/
def THINK_DURATION_MS : Nat := 3000

/-- Eat duration in milliseconds (`src/main.cpp` line 120). -/
def EAT_DURATION_MS : Nat := 3000

/-- `const int leftChopstick = philosopherID` (`src/main.cpp` line 143). -/
def leftChopstick (i : Nat) : Nat := i

/-- `const int rightChopstick = (philosopherID + 1) % NUM_PHILOSOPHERS`
(`src/main.cpp` line 144). -/
def rightChopstick (N i : Nat) : Nat := (i + 1) % N

/-- The chopstick philosopher `i` acquires first: even ids acquire the right
chopstick first, odd ids the left one first (`src/main.cpp` lines 154-168). -/
def firstChopstick (N i : Nat) : Nat :=
  if i % 2 = 0 then rightChopstick N i else leftChopstick i

/-- The chopstick philosopher `i` acquires second (`src/main.cpp`
lines 154-168). -/
def secondChopstick (N i : Nat) : Nat :=
  if i % 2 = 0 then leftChopstick i else rightChopstick N i

/-- Control locations of the philosopher loop body (`src/main.cpp`
lines 147-177): before `think` returns, before the first `acquire`, between
the two `acquire`s, between the second `acquire` and the first `release`
(the eating section), and between the two `release`s. -/
inductive Phase where
  | thinking
  | hungry
  | holdingFirst
  | eating
  | releasedLeft
deriving DecidableEq, Repr

/-- Global state of the interleaving semantics: one control location per
philosopher thread and one availability bit per binary semaphore
(the `chopsticks` array, `src/main.cpp` lines 43-49; `true` means the
semaphore count is 1). -/
structure Sys where
  phase : Nat → Phase
  avail : Nat → Bool

/-- Pointwise update of a map, used for the thread-local and per-semaphore
state changes of a step. -/
def upd {α : Type} (f : Nat → α) (i : Nat) (v : α) : Nat → α :=
  fun j => if j = i then v else f j

/-- Observable action performed by one atomic step of a philosopher. -/
inductive Act where
  | becomeHungry
  | acquire (c : Nat)
  | release (c : Nat)
deriving DecidableEq, Repr

/-- One atomic step of philosopher thread `i`, following the loop body of
`philosopher` (`src/main.cpp` lines 147-177): finish thinking and become
hungry; acquire the parity-dependent first chopstick; acquire the second
chopstick; release the left chopstick (line 173); release the right
chopstick (line 174) and loop back to thinking.  The result is `none`
exactly when `i` is blocked inside `acquire` on an unavailable semaphore. -/
def step (N : Nat) (s : Sys) (i : Nat) : Option (Act × Sys) :=
  match s.phase i with
  | Phase.thinking =>
      some (Act.becomeHungry, ⟨upd s.phase i Phase.hungry, s.avail⟩)
  | Phase.hungry =>
      if s.avail (firstChopstick N i) then
        some (Act.acquire (firstChopstick N i),
          ⟨upd s.phase i Phase.holdingFirst,
           upd s.avail (firstChopstick N i) false⟩)
      else none
  | Phase.holdingFirst =>
      if s.avail (secondChopstick N i) then
        some (Act.acquire (secondChopstick N i),
          ⟨upd s.phase i Phase.eating,
           upd s.avail (secondChopstick N i) false⟩)
      else none
  | Phase.eating =>
      some (Act.release (leftChopstick i),
        ⟨upd s.phase i Phase.releasedLeft,
         upd s.avail (leftChopstick i) true⟩)
  | Phase.releasedLeft =>
      some (Act.release (rightChopstick N i),
        ⟨upd s.phase i Phase.thinking,
         upd s.avail (rightChopstick N i) true⟩)

/-- Which chopsticks philosopher `i` holds at control location `p`: a
chopstick is held from the return of its `acquire` to the corresponding
`release`. -/
def holdsChopstick (N i : Nat) (p : Phase) (c : Nat) : Bool :=
  match p with
  | Phase.thinking => false
  | Phase.hungry => false
  | Phase.holdingFirst => c == firstChopstick N i
  | Phase.eating => c == leftChopstick i || c == rightChopstick N i
  | Phase.releasedLeft => c == rightChopstick N i

/-- Initial state: every thread is at the top of its loop and every binary
semaphore is initialized to 1 (`src/main.cpp` lines 43-49). -/
def init : Sys := ⟨fun _ => Phase.thinking, fun _ => true⟩

/-- States reachable from `init` by interleaving steps of threads `0..N-1`. -/
inductive Reachable (N : Nat) : Sys → Prop where
  | init : Reachable N init
  | next (s : Sys) (i : Nat) (a : Act) (s' : Sys) :
      Reachable N s → i < N → step N s i = some (a, s') → Reachable N s'

/-- Total deadlock: every philosopher thread is blocked in `acquire`. -/
def Deadlocked (N : Nat) (s : Sys) : Prop :=
  ∀ i, i < N → step N s i = none

/-- The central state invariant: a semaphore is unavailable exactly when
some philosopher holds it, and no chopstick is held by two philosophers. -/
def SysInv (N : Nat) (s : Sys) : Prop :=
  (∀ c, s.avail c = false ↔
      ∃ i, i < N ∧ holdsChopstick N i (s.phase i) c = true) ∧
  (∀ c i j, i < N → j < N → holdsChopstick N i (s.phase i) c = true →
      holdsChopstick N j (s.phase j) c = true → i = j)

theorem upd_self {α : Type} (f : Nat → α) (i : Nat) (v : α) :
    upd f i v i = v := by
  simp [upd]

theorem upd_ne {α : Type} (f : Nat → α) (i j : Nat) (v : α) (h : j ≠ i) :
    upd f i v j = f j := by
  simp [upd, h]

theorem rightChopstick_lt (N i : Nat) (hN : 0 < N) :
    rightChopstick N i < N :=
  Nat.mod_lt _ hN

theorem left_ne_right (N i : Nat) (hN : 2 ≤ N) (hi : i < N) :
    leftChopstick i ≠ rightChopstick N i := by
  unfold leftChopstick rightChopstick
  rcases Nat.lt_or_ge (i + 1) N with h | h
  · rw [Nat.mod_eq_of_lt h]; omega
  · have hiN : i + 1 = N := by omega
    rw [hiN, Nat.mod_self]; omega

theorem first_or_second (N i c : Nat) :
    (c = leftChopstick i ∨ c = rightChopstick N i) ↔
      (c = firstChopstick N i ∨ c = secondChopstick N i) := by
  unfold firstChopstick secondChopstick
  by_cases h : i % 2 = 0
  · simp [h, Or.comm]
  · simp [h]

theorem first_ne_second (N i : Nat) (hN : 2 ≤ N) (hi : i < N) :
    firstChopstick N i ≠ secondChopstick N i := by
  unfold firstChopstick secondChopstick
  by_cases h : i % 2 = 0 <;> simp [h]
  · exact (left_ne_right N i hN hi).symm
  · exact left_ne_right N i hN hi

/-- Who can hold chopstick `c` as their first chopstick: an odd `j = c`, an
even `j` with `c = j + 1`, or (wrapping around the ring) the last
philosopher `j = N - 1` when `N - 1` is even, for `c = 0`. -/
theorem firstChopstick_cases (N j c : Nat) (hN : 2 ≤ N) (hj : j < N)
    (h : firstChopstick N j = c) :
    (j % 2 = 1 ∧ c = j) ∨ (j % 2 = 0 ∧ j + 1 < N ∧ c = j + 1) ∨
      (j % 2 = 0 ∧ j = N - 1 ∧ c = 0) := by
  unfold firstChopstick rightChopstick leftChopstick at h
  by_cases h2 : j % 2 = 0 <;> simp [h2] at h
  · rcases Nat.lt_or_ge (j + 1) N with h3 | h3
    · right; left
      rw [Nat.mod_eq_of_lt h3] at h
      exact ⟨h2, h3, h.symm⟩
    · have hjN : j + 1 = N := by omega
      right; right
      rw [hjN, Nat.mod_self] at h
      exact ⟨h2, by omega, h.symm⟩
  · exact Or.inl ⟨by omega, h.symm⟩

theorem holds_upd (N : Nat) (s : Sys) (i : Nat) (p' : Phase) (j c : Nat) :
    holdsChopstick N j (upd s.phase i p' j) c =
      if j = i then holdsChopstick N i p' c
      else holdsChopstick N j (s.phase j) c := by
  by_cases hji : j = i
  · subst hji; simp [upd]
  · simp [upd, hji]

theorem sysInv_init (N : Nat) : SysInv N init := by
  constructor
  · intro c
    simp [init, holdsChopstick]
  · intro c j k _ _ hjh _
    simp [init, holdsChopstick] at hjh

/-- An `acquire` of an available chopstick `c0` preserves the invariant:
the acquiring philosopher moves to a phase where it holds exactly its
previous chopsticks plus `c0`. -/
theorem sysInv_acquire (N : Nat) (s : Sys) (i c0 : Nat) (p' : Phase)
    (hi : i < N) (hav : s.avail c0 = true)
    (hnew : ∀ c, holdsChopstick N i p' c =
        (holdsChopstick N i (s.phase i) c || (c == c0)))
    (hInv : SysInv N s) :
    SysInv N ⟨upd s.phase i p', upd s.avail c0 false⟩ := by
  obtain ⟨havail, huniq⟩ := hInv
  have hnotheld : ∀ j, j < N → holdsChopstick N j (s.phase j) c0 = false := by
    intro j hj
    rcases Bool.eq_false_or_eq_true (holdsChopstick N j (s.phase j) c0)
      with hb | hb
    swap
    · exact hb
    · exfalso
      have hc0 : s.avail c0 = false := (havail c0).mpr ⟨j, hj, hb⟩
      rw [hav] at hc0
      exact Bool.noConfusion hc0
  constructor
  · intro c
    by_cases hcc : c = c0
    · subst hcc
      show upd s.avail c false c = false ↔ _
      rw [upd_self]
      constructor
      · intro _
        refine ⟨i, hi, ?_⟩
        rw [holds_upd]
        simp only [if_pos rfl, hnew c, hnotheld i hi]
        simp
      · intro _; rfl
    · show upd s.avail c0 false c = false ↔ _
      rw [upd_ne _ _ _ _ hcc, havail c]
      apply exists_congr
      intro j
      apply and_congr_right
      intro hj
      rw [holds_upd]
      by_cases hji : j = i
      · subst hji
        simp only [if_pos rfl, hnew c]
        have hb : (c == c0) = false := by simp [hcc]
        simp [hb]
      · simp [hji]
  · intro c j k hj hk hjh hkh
    rw [holds_upd] at hjh hkh
    by_cases hji : j = i <;> by_cases hki : k = i
    · rw [hji, hki]
    · exfalso
      rw [if_pos hji, hnew c] at hjh
      rw [if_neg hki] at hkh
      rcases Bool.or_eq_true _ _ |>.mp hjh with hold | hc0
      · exact hki (huniq c i k hi hk hold hkh).symm
      · have hcc : c = c0 := by simpa using hc0
        rw [hcc, hnotheld k hk] at hkh
        exact Bool.noConfusion hkh
    · exfalso
      rw [if_pos hki, hnew c] at hkh
      rw [if_neg hji] at hjh
      rcases Bool.or_eq_true _ _ |>.mp hkh with hold | hc0
      · exact hji (huniq c j i hj hi hjh hold)
      · have hcc : c = c0 := by simpa using hc0
        rw [hcc, hnotheld j hj] at hjh
        exact Bool.noConfusion hjh
    · rw [if_neg hji] at hjh
      rw [if_neg hki] at hkh
      exact huniq c j k hj hk hjh hkh

/-- A `release` of a held chopstick `c0` preserves the invariant: the
releasing philosopher moves to a phase where it holds exactly its previous
chopsticks minus `c0`. -/
theorem sysInv_release (N : Nat) (s : Sys) (i c0 : Nat) (p' : Phase)
    (hi : i < N)
    (hheld : holdsChopstick N i (s.phase i) c0 = true)
    (hnew : ∀ c, holdsChopstick N i p' c =
        (holdsChopstick N i (s.phase i) c && !(c == c0)))
    (hInv : SysInv N s) :
    SysInv N ⟨upd s.phase i p', upd s.avail c0 true⟩ := by
  obtain ⟨havail, huniq⟩ := hInv
  constructor
  · intro c
    by_cases hcc : c = c0
    · subst hcc
      show upd s.avail c true c = false ↔ _
      rw [upd_self]
      constructor
      · intro h; exact Bool.noConfusion h
      · rintro ⟨j, hj, hjh⟩
        exfalso
        rw [holds_upd] at hjh
        by_cases hji : j = i
        · rw [if_pos hji, hnew c] at hjh
          simp at hjh
        · rw [if_neg hji] at hjh
          exact hji (huniq c j i hj hi hjh hheld)
    · show upd s.avail c0 true c = false ↔ _
      rw [upd_ne _ _ _ _ hcc, havail c]
      apply exists_congr
      intro j
      apply and_congr_right
      intro hj
      rw [holds_upd]
      by_cases hji : j = i
      · subst hji
        simp only [if_pos rfl, hnew c]
        have hb : (c == c0) = false := by simp [hcc]
        simp [hb]
      · simp [hji]
  · intro c j k hj hk hjh hkh
    rw [holds_upd] at hjh hkh
    by_cases hji : j = i <;> by_cases hki : k = i
    · rw [hji, hki]
    · rw [if_pos hji, hnew c] at hjh
      rw [if_neg hki] at hkh
      have hold : holdsChopstick N i (s.phase i) c = true :=
        (Bool.and_eq_true _ _ |>.mp hjh).1
      rw [hji]
      exact (huniq c i k hi hk hold hkh).symm ▸ rfl
    · rw [if_pos hki, hnew c] at hkh
      rw [if_neg hji] at hjh
      have hold : holdsChopstick N i (s.phase i) c = true :=
        (Bool.and_eq_true _ _ |>.mp hkh).1
      rw [hki]
      exact huniq c j i hj hi hjh hold
    · rw [if_neg hji] at hjh
      rw [if_neg hki] at hkh
      exact huniq c j k hj hk hjh hkh

/-- A step that changes only the control location, with the philosopher
holding the same chopsticks before and after, preserves the invariant. -/
theorem sysInv_same (N : Nat) (s : Sys) (i : Nat) (p' : Phase)
    (hi : i < N)
    (hsame : ∀ c, holdsChopstick N i p' c =
        holdsChopstick N i (s.phase i) c)
    (hInv : SysInv N s) :
    SysInv N ⟨upd s.phase i p', s.avail⟩ := by
  obtain ⟨havail, huniq⟩ := hInv
  constructor
  · intro c
    show s.avail c = false ↔ _
    rw [havail c]
    apply exists_congr
    intro j
    apply and_congr_right
    intro hj
    rw [holds_upd]
    by_cases hji : j = i
    · subst hji; simp [hsame c]
    · simp [hji]
  · intro c j k hj hk hjh hkh
    rw [holds_upd] at hjh hkh
    by_cases hji : j = i <;> by_cases hki : k = i
    · rw [hji, hki]
    · rw [if_pos hji, hsame c] at hjh
      rw [if_neg hki] at hkh
      rw [hji]
      exact huniq c i k hi hk hjh hkh
    · rw [if_pos hki, hsame c] at hkh
      rw [if_neg hji] at hjh
      rw [hki]
      exact huniq c j i hj hi hjh hkh
    · rw [if_neg hji] at hjh
      rw [if_neg hki] at hkh
      exact huniq c j k hj hk hjh hkh

/-- Every step preserves the invariant. -/
theorem sysInv_step (N : Nat) (hN : 2 ≤ N) (s s' : Sys) (i : Nat) (a : Act)
    (hi : i < N) (hInv : SysInv N s) (h : step N s i = some (a, s')) :
    SysInv N s' := by
  rcases hp : s.phase i with _ | _ | _ | _ | _
  · simp only [step, hp, Option.some.injEq, Prod.mk.injEq] at h
    rw [← h.2]
    apply sysInv_same N s i Phase.hungry hi _ hInv
    intro c
    rw [hp]
    rfl
  · rcases hav : s.avail (firstChopstick N i) with _ | _
    · simp [step, hp, hav] at h
    · simp only [step, hp, hav, if_true, Option.some.injEq, Prod.mk.injEq]
        at h
      rw [← h.2]
      apply sysInv_acquire N s i (firstChopstick N i) Phase.holdingFirst hi
        hav _ hInv
      intro c
      rw [hp]
      simp [holdsChopstick]
  · rcases hav : s.avail (secondChopstick N i) with _ | _
    · simp [step, hp, hav] at h
    · simp only [step, hp, hav, if_true, Option.some.injEq, Prod.mk.injEq]
        at h
      rw [← h.2]
      apply sysInv_acquire N s i (secondChopstick N i) Phase.eating hi
        hav _ hInv
      intro c
      rw [hp]
      show ((c == leftChopstick i) || (c == rightChopstick N i)) =
        ((c == firstChopstick N i) || (c == secondChopstick N i))
      unfold firstChopstick secondChopstick
      by_cases h2 : i % 2 = 0
      · simp [h2, Bool.or_comm]
      · simp [h2]
  · simp only [step, hp, Option.some.injEq, Prod.mk.injEq] at h
    rw [← h.2]
    apply sysInv_release N s i (leftChopstick i) Phase.releasedLeft hi _ _
      hInv
    · rw [hp]
      simp [holdsChopstick]
    · intro c
      rw [hp]
      show (c == rightChopstick N i) =
        (((c == leftChopstick i) || (c == rightChopstick N i)) &&
          !(c == leftChopstick i))
      by_cases hcl : c = leftChopstick i
      · have hlr := left_ne_right N i hN hi
        rw [hcl]
        simp [hlr]
      · have hb : (c == leftChopstick i) = false := by simp [hcl]
        simp [hb]
  · simp only [step, hp, Option.some.injEq, Prod.mk.injEq] at h
    rw [← h.2]
    apply sysInv_release N s i (rightChopstick N i) Phase.thinking hi _ _
      hInv
    · rw [hp]
      simp [holdsChopstick]
    · intro c
      rw [hp]
      show false = ((c == rightChopstick N i) && !(c == rightChopstick N i))
      simp

/-- Every reachable state satisfies the invariant. -/
theorem reachable_sysInv (N : Nat) (hN : 2 ≤ N) (s : Sys)
    (hs : Reachable N s) : SysInv N s := by
  induction hs with
  | init => exact sysInv_init N
  | next s i a s' _ hi hstep ih => exact sysInv_step N hN s s' i a hi ih hstep

/-- A thread is blocked exactly when it is inside one of the two `acquire`
calls and the targeted semaphore is unavailable. -/
theorem step_eq_none (N : Nat) (s : Sys) (i : Nat) (h : step N s i = none) :
    (s.phase i = Phase.hungry ∧ s.avail (firstChopstick N i) = false) ∨
      (s.phase i = Phase.holdingFirst ∧
        s.avail (secondChopstick N i) = false) := by
  rcases hp : s.phase i with _ | _ | _ | _ | _
  · simp [step, hp] at h
  · rcases hav : s.avail (firstChopstick N i) with _ | _
    · exact Or.inl ⟨rfl, rfl⟩
    · simp [step, hp, hav] at h
  · rcases hav : s.avail (secondChopstick N i) with _ | _
    · exact Or.inr ⟨rfl, rfl⟩
    · simp [step, hp, hav] at h
  · simp [step, hp] at h
  · simp [step, hp] at h

/-- In a totally deadlocked state, an unavailable chopstick is held by a
philosopher that sits between its two `acquire`s and holds it as its first
chopstick (any other holder would not be blocked). -/
theorem deadlock_holder (N : Nat) (s : Sys) (hInv : SysInv N s)
    (hd : Deadlocked N s) (c : Nat) (hc : s.avail c = false) :
    ∃ j, j < N ∧ s.phase j = Phase.holdingFirst ∧ firstChopstick N j = c := by
  obtain ⟨j, hj, hjh⟩ := (hInv.1 c).mp hc
  rcases step_eq_none N s j (hd j hj) with ⟨hp, _⟩ | ⟨hp, _⟩
  · rw [hp] at hjh
    exact absurd hjh (by simp [holdsChopstick])
  · rw [hp] at hjh
    have hcj : c = firstChopstick N j := by simpa [holdsChopstick] using hjh
    exact ⟨j, hj, hp, hcj.symm⟩

/-- C1: deadlock freedom of the asymmetric acquisition policy, for any ring
of `N ≥ 2` philosophers: no reachable state has every thread simultaneously
blocked in `acquire`. -/
theorem deadlock_free (N : Nat) (hN : 2 ≤ N) (s : Sys)
    (hs : Reachable N s) : ¬ Deadlocked N s := by
  intro hd
  have hInv := reachable_sysInv N hN s hs
  have h0 : (0 : Nat) < N := by omega
  have h1 : (1 : Nat) < N := by omega
  rcases step_eq_none N s 0 (hd 0 h0) with ⟨hp0, hb0⟩ | ⟨hp0, hb0⟩
  · -- philosopher 0 is hungry, blocked on its first chopstick 1
    have hfc0 : firstChopstick N 0 = 1 := by
      unfold firstChopstick rightChopstick
      simp [Nat.mod_eq_of_lt h1]
    rw [hfc0] at hb0
    obtain ⟨j, hj, hpj, hfj⟩ := deadlock_holder N s hInv hd 1 hb0
    rcases firstChopstick_cases N j 1 hN hj hfj with
      ⟨hj2, hj1⟩ | ⟨hj2, hjlt, hj1⟩ | ⟨hj2, hjN, hj1⟩
    · -- the holder of chopstick 1 must be philosopher 1
      have hj1' : j = 1 := by omega
      rw [hj1'] at hpj
      -- philosopher 1 is blocked on its second chopstick 2 % N
      rcases step_eq_none N s 1 (hd 1 h1) with ⟨hp1, _⟩ | ⟨_, hb1⟩
      · rw [hpj] at hp1
        exact Phase.noConfusion hp1
      · have hsc1 : secondChopstick N 1 = 2 % N := by
          unfold secondChopstick rightChopstick
          simp
        rw [hsc1] at hb1
        obtain ⟨k, hk, hpk, hfk⟩ := deadlock_holder N s hInv hd (2 % N) hb1
        -- but no philosopher can hold chopstick 2 % N as its first one
        rcases Nat.eq_or_lt_of_le hN with hN2 | hN2
        · have h20 : 2 % N = 0 := by
            rw [← hN2]
          rw [h20] at hfk
          rcases firstChopstick_cases N k 0 hN hk hfk with
            ⟨hk2, hk1⟩ | ⟨hk2, hklt, hk1⟩ | ⟨hk2, hkN, hk1⟩ <;> omega
        · have h22 : 2 % N = 2 := Nat.mod_eq_of_lt hN2
          rw [h22] at hfk
          rcases firstChopstick_cases N k 2 hN hk hfk with
            ⟨hk2, hk1⟩ | ⟨hk2, hklt, hk1⟩ | ⟨hk2, hkN, hk1⟩ <;> omega
    · -- the even holder j with j + 1 = 1 would be philosopher 0, yet 0 is
      -- hungry, not holding
      have hj0 : j = 0 := by omega
      rw [hj0, hp0] at hpj
      exact Phase.noConfusion hpj
    · omega
  · -- philosopher 0 holds its first chopstick, blocked on chopstick 0
    have hsc0 : secondChopstick N 0 = 0 := by
      unfold secondChopstick leftChopstick
      simp
    rw [hsc0] at hb0
    obtain ⟨k, hk, hpk, hfk⟩ := deadlock_holder N s hInv hd 0 hb0
    rcases firstChopstick_cases N k 0 hN hk hfk with
      ⟨hk2, hk1⟩ | ⟨hk2, hklt, hk1⟩ | ⟨hk2, hkN, hk1⟩
    · omega
    · omega
    · -- the wrap-around holder k = N - 1 (even) is blocked on chopstick
      -- N - 1, which nobody can hold as a first chopstick
      rcases step_eq_none N s k (hd k hk) with ⟨hpk', _⟩ | ⟨_, hbk⟩
      · rw [hpk] at hpk'
        exact Phase.noConfusion hpk'
      · have hsck : secondChopstick N k = k := by
          unfold secondChopstick leftChopstick
          simp [hk2]
        rw [hsck] at hbk
        obtain ⟨m, hm, hpm, hfm⟩ := deadlock_holder N s hInv hd k hbk
        rcases firstChopstick_cases N m k hN hm hfm with
          ⟨hm2, hm1⟩ | ⟨hm2, hmlt, hm1⟩ | ⟨hm2, hmN, hm1⟩ <;> omega

/-- A step of thread `i` leaves every other thread's control location
unchanged. -/
theorem step_phase_other (N : Nat) (s s' : Sys) (i : Nat) (a : Act)
    (h : step N s i = some (a, s')) (j : Nat) (hji : j ≠ i) :
    s'.phase j = s.phase j := by
  rcases hp : s.phase i with _ | _ | _ | _ | _
  · simp only [step, hp, Option.some.injEq, Prod.mk.injEq] at h
    rw [← h.2]
    exact upd_ne _ _ _ _ hji
  · rcases hav : s.avail (firstChopstick N i) with _ | _
    · simp [step, hp, hav] at h
    · simp only [step, hp, hav, if_true, Option.some.injEq,
        Prod.mk.injEq] at h
      rw [← h.2]
      exact upd_ne _ _ _ _ hji
  · rcases hav : s.avail (secondChopstick N i) with _ | _
    · simp [step, hp, hav] at h
    · simp only [step, hp, hav, if_true, Option.some.injEq,
        Prod.mk.injEq] at h
      rw [← h.2]
      exact upd_ne _ _ _ _ hji
  · simp only [step, hp, Option.some.injEq, Prod.mk.injEq] at h
    rw [← h.2]
    exact upd_ne _ _ _ _ hji
  · simp only [step, hp, Option.some.injEq, Prod.mk.injEq] at h
    rw [← h.2]
    exact upd_ne _ _ _ _ hji

/-- From the hungry location the step acquires exactly the parity-chosen
first chopstick. -/
theorem step_from_hungry (N : Nat) (s s' : Sys) (i : Nat) (a : Act)
    (hp : s.phase i = Phase.hungry) (h : step N s i = some (a, s')) :
    a = Act.acquire (firstChopstick N i) ∧
      s'.phase i = Phase.holdingFirst := by
  rcases hav : s.avail (firstChopstick N i) with _ | _
  · simp [step, hp, hav] at h
  · simp only [step, hp, hav, if_true, Option.some.injEq,
      Prod.mk.injEq] at h
    refine ⟨h.1.symm, ?_⟩
    rw [← h.2]
    exact upd_self _ _ _

/-- From the location between the two acquires, the step acquires exactly
the second chopstick. -/
theorem step_from_holdingFirst (N : Nat) (s s' : Sys) (i : Nat) (a : Act)
    (hp : s.phase i = Phase.holdingFirst) (h : step N s i = some (a, s')) :
    a = Act.acquire (secondChopstick N i) ∧ s'.phase i = Phase.eating := by
  rcases hav : s.avail (secondChopstick N i) with _ | _
  · simp [step, hp, hav] at h
  · simp only [step, hp, hav, if_true, Option.some.injEq,
      Prod.mk.injEq] at h
    refine ⟨h.1.symm, ?_⟩
    rw [← h.2]
    exact upd_self _ _ _

/-- The eating location is entered only from the location between the two
acquires, which is entered only from hungry: the first-chopstick acquire
strictly precedes the second in every loop iteration. -/
theorem step_sources (N : Nat) (s s' : Sys) (i : Nat) (a : Act)
    (h : step N s i = some (a, s')) :
    (s'.phase i = Phase.eating → s.phase i = Phase.holdingFirst) ∧
      (s'.phase i = Phase.holdingFirst → s.phase i = Phase.hungry) := by
  rcases hp : s.phase i with _ | _ | _ | _ | _
  · simp only [step, hp, Option.some.injEq, Prod.mk.injEq] at h
    constructor <;> intro hpre <;> rw [← h.2] at hpre <;>
      simp [upd] at hpre
  · rcases hav : s.avail (firstChopstick N i) with _ | _
    · simp [step, hp, hav] at h
    · simp only [step, hp, hav, if_true, Option.some.injEq,
        Prod.mk.injEq] at h
      refine ⟨?_, fun _ => rfl⟩
      intro hpre
      rw [← h.2] at hpre
      simp [upd] at hpre
  · rcases hav : s.avail (secondChopstick N i) with _ | _
    · simp [step, hp, hav] at h
    · simp only [step, hp, hav, if_true, Option.some.injEq,
        Prod.mk.injEq] at h
      refine ⟨fun _ => rfl, ?_⟩
      intro hpre
      rw [← h.2] at hpre
      simp [upd] at hpre
  · simp only [step, hp, Option.some.injEq, Prod.mk.injEq] at h
    constructor <;> intro hpre <;> rw [← h.2] at hpre <;>
      simp [upd] at hpre
  · simp only [step, hp, Option.some.injEq, Prod.mk.injEq] at h
    constructor <;> intro hpre <;> rw [← h.2] at hpre <;>
      simp [upd] at hpre

/-- Along a step of thread `i`, `i` gains a chopstick only through the
`acquire` of that chopstick and loses one only through its `release`. -/
theorem step_self_holds (N : Nat) (s s' : Sys) (i : Nat) (a : Act)
    (h : step N s i = some (a, s')) (c : Nat) :
    (holdsChopstick N i (s.phase i) c = false →
      holdsChopstick N i (s'.phase i) c = true → a = Act.acquire c) ∧
    (holdsChopstick N i (s.phase i) c = true →
      holdsChopstick N i (s'.phase i) c = false → a = Act.release c) := by
  rcases hp : s.phase i with _ | _ | _ | _ | _
  · simp only [step, hp, Option.some.injEq, Prod.mk.injEq] at h
    constructor
    · intro _ ht
      rw [← h.2] at ht
      simp [upd, holdsChopstick] at ht
    · intro ht _
      simp [holdsChopstick] at ht
  · rcases hav : s.avail (firstChopstick N i) with _ | _
    · simp [step, hp, hav] at h
    · simp only [step, hp, hav, if_true, Option.some.injEq,
        Prod.mk.injEq] at h
      constructor
      · intro _ ht
        rw [← h.2] at ht
        simp [upd, holdsChopstick] at ht
        rw [ht]
        exact h.1.symm
      · intro ht _
        simp [holdsChopstick] at ht
  · rcases hav : s.avail (secondChopstick N i) with _ | _
    · simp [step, hp, hav] at h
    · simp only [step, hp, hav, if_true, Option.some.injEq,
        Prod.mk.injEq] at h
      constructor
      · intro hf ht
        rw [← h.2] at ht
        simp [upd, holdsChopstick] at ht
        simp [holdsChopstick] at hf
        have hc2 : c = secondChopstick N i := by
          rcases (first_or_second N i c).mp ht with hc | hc
          · exact absurd hc hf
          · exact hc
        rw [hc2]
        exact h.1.symm
      · intro ht hf
        rw [← h.2] at hf
        simp [holdsChopstick] at ht
        simp [upd, holdsChopstick] at hf
        have hcases := (first_or_second N i (firstChopstick N i)).mpr
          (Or.inl rfl)
        rcases hcases with hc | hc
        · exact absurd (ht.trans hc) hf.1
        · exact absurd (ht.trans hc) hf.2
  · simp only [step, hp, Option.some.injEq, Prod.mk.injEq] at h
    constructor
    · intro hf ht
      rw [← h.2] at ht
      simp [upd, holdsChopstick] at ht
      simp [holdsChopstick] at hf
      exact absurd ht hf.2
    · intro ht hf
      rw [← h.2] at hf
      simp [holdsChopstick] at ht
      simp [upd, holdsChopstick] at hf
      have hcl : c = leftChopstick i := by
        rcases ht with hc | hc
        · exact hc
        · exact absurd hc hf
      rw [hcl]
      exact h.1.symm
  · simp only [step, hp, Option.some.injEq, Prod.mk.injEq] at h
    constructor
    · intro _ ht
      rw [← h.2] at ht
      simp [upd, holdsChopstick] at ht
    · intro ht _
      simp [holdsChopstick] at ht
      rw [ht]
      exact h.1.symm

/-- Concrete run prefix: philosopher 0 becomes hungry. -/
def w1 : Sys := ⟨upd init.phase 0 Phase.hungry, init.avail⟩

/-- Philosopher 0 has acquired its first (right) chopstick 1. -/
def w2 : Sys := ⟨upd w1.phase 0 Phase.holdingFirst, upd w1.avail 1 false⟩

/-- Philosopher 0 has acquired its second (left) chopstick 0 and eats. -/
def w3 : Sys := ⟨upd w2.phase 0 Phase.eating, upd w2.avail 0 false⟩

/-- Philosopher 0 has released its left chopstick 0. -/
def w4 : Sys := ⟨upd w3.phase 0 Phase.releasedLeft, upd w3.avail 0 true⟩

/-- Philosopher 0 has released its right chopstick 1 and thinks again. -/
def w5 : Sys := ⟨upd w4.phase 0 Phase.thinking, upd w4.avail 1 true⟩

theorem step_init_0 : step 5 init 0 = some (Act.becomeHungry, w1) := rfl

theorem step_w1_0 : step 5 w1 0 = some (Act.acquire 1, w2) := rfl

theorem step_w2_0 : step 5 w2 0 = some (Act.acquire 0, w3) := rfl

theorem step_w3_0 : step 5 w3 0 = some (Act.release 0, w4) := rfl

theorem step_w4_0 : step 5 w4 0 = some (Act.release 1, w5) := rfl

theorem reachable_w1 : Reachable 5 w1 :=
  Reachable.next init 0 Act.becomeHungry w1 Reachable.init (by omega)
    step_init_0

theorem reachable_w2 : Reachable 5 w2 :=
  Reachable.next w1 0 (Act.acquire 1) w2 reachable_w1 (by omega) step_w1_0

theorem reachable_w3 : Reachable 5 w3 :=
  Reachable.next w2 0 (Act.acquire 0) w3 reachable_w2 (by omega) step_w2_0

theorem deadlock_free_witness :
    2 ≤ 5 ∧ Reachable 5 init ∧ ¬ Deadlocked 5 init :=
  ⟨by omega, Reachable.init, deadlock_free 5 (by omega) init Reachable.init⟩

/-- C2: mutual exclusion per chopstick in every reachable state, and a
philosopher starts holding a chopstick only through its own successful
`acquire` of it and stops holding it only through its own `release`. -/
theorem mutual_exclusion (N : Nat) (hN : 2 ≤ N) (s : Sys)
    (hs : Reachable N s) :
    (∀ c i j, i < N → j < N →
        holdsChopstick N i (s.phase i) c = true →
        holdsChopstick N j (s.phase j) c = true → i = j) ∧
    (∀ i a s' j c, step N s i = some (a, s') →
        (holdsChopstick N j (s.phase j) c = false →
          holdsChopstick N j (s'.phase j) c = true →
          j = i ∧ a = Act.acquire c) ∧
        (holdsChopstick N j (s.phase j) c = true →
          holdsChopstick N j (s'.phase j) c = false →
          j = i ∧ a = Act.release c)) := by
  constructor
  · exact (reachable_sysInv N hN s hs).2
  · intro i a s' j c h
    by_cases hji : j = i
    · rw [hji]
      constructor
      · intro hf ht
        exact ⟨rfl, (step_self_holds N s s' i a h c).1 hf ht⟩
      · intro ht hf
        exact ⟨rfl, (step_self_holds N s s' i a h c).2 ht hf⟩
    · have hsame := step_phase_other N s s' i a h j hji
      constructor
      · intro hf ht
        rw [hsame] at ht
        exact absurd (hf.symm.trans ht) (by simp)
      · intro ht hf
        rw [hsame] at hf
        exact absurd (ht.symm.trans hf) (by simp)

theorem mutual_exclusion_witness :
    holdsChopstick 5 0 (w3.phase 0) 1 = true ∧
      holdsChopstick 5 1 (w3.phase 1) 1 = false := by
  refine ⟨by decide, ?_⟩
  rcases hb : holdsChopstick 5 1 (w3.phase 1) 1 with _ | _
  · rfl
  · have h01 : (0 : Nat) = 1 :=
      (mutual_exclusion 5 (by omega) w3 reachable_w3).1 1 0 1 (by omega)
        (by omega) (by decide) hb
    exact absurd h01 (by omega)

/-- C3: the per-parity acquisition order of the loop body: a hungry even
philosopher acquires its right chopstick, a hungry odd one its left; the
second acquire takes the remaining chopstick; eating is reached only
through the intermediate holding location, so in every loop iteration the
first-choice acquire strictly precedes the second; in particular, with
`N = 5`, philosopher 0 acquires chopstick 1 before chopstick 0 and
philosopher 1 acquires chopstick 1 before chopstick 2. -/
theorem acquisition_order (N : Nat) (s s' : Sys) (i : Nat) (_hi : i < N)
    (a : Act) (h : step N s i = some (a, s')) :
    (s.phase i = Phase.hungry →
      a = Act.acquire
        (if i % 2 = 0 then rightChopstick N i else leftChopstick i)) ∧
    (s.phase i = Phase.holdingFirst →
      a = Act.acquire
        (if i % 2 = 0 then leftChopstick i else rightChopstick N i)) ∧
    (s'.phase i = Phase.eating → s.phase i = Phase.holdingFirst) ∧
    (s'.phase i = Phase.holdingFirst → s.phase i = Phase.hungry) ∧
    (firstChopstick 5 0 = 1 ∧ secondChopstick 5 0 = 0 ∧
      firstChopstick 5 1 = 1 ∧ secondChopstick 5 1 = 2) := by
  refine ⟨?_, ?_, (step_sources N s s' i a h).1, (step_sources N s s' i a h).2,
    by decide, by decide, by decide, by decide⟩
  · intro hp
    exact (step_from_hungry N s s' i a hp h).1
  · intro hp
    exact (step_from_holdingFirst N s s' i a hp h).1

theorem acquisition_order_witness :
    Act.acquire 1 =
      Act.acquire (if 0 % 2 = 0 then rightChopstick 5 0
        else leftChopstick 0) := by
  have h := acquisition_order 5 w1 w2 0 (by omega) (Act.acquire 1) step_w1_0
  exact h.1 rfl

/-- C4: the ring structure: philosopher `i` uses exactly chopsticks `i`
(left) and `(i + 1) % N` (right), and chopstick `c` is used by exactly the
two distinct ring-adjacent philosophers `c` and `(c + N - 1) % N`. -/
theorem ring_adjacency (N : Nat) (hN : 2 ≤ N) (i : Nat) (hi : i < N)
    (c : Nat) (hc : c < N) :
    leftChopstick i = i ∧ rightChopstick N i = (i + 1) % N ∧
    ((leftChopstick i = c ∨ rightChopstick N i = c) ↔
      (i = c ∨ i = (c + N - 1) % N)) ∧
    c ≠ (c + N - 1) % N := by
  refine ⟨rfl, rfl, ?_, ?_⟩
  · unfold leftChopstick rightChopstick
    constructor
    · rintro (rfl | hr)
      · exact Or.inl rfl
      · right
        rcases Nat.lt_or_ge (i + 1) N with h | h
        · rw [Nat.mod_eq_of_lt h] at hr
          rw [← hr]
          have he : i + 1 + N - 1 = i + N := by omega
          rw [he, Nat.add_mod_right, Nat.mod_eq_of_lt hi]
        · have hiN : i + 1 = N := by omega
          rw [hiN, Nat.mod_self] at hr
          rw [← hr]
          have he : 0 + N - 1 = N - 1 := by omega
          rw [he, Nat.mod_eq_of_lt (by omega)]
          omega
    · rintro (rfl | hl)
      · exact Or.inl rfl
      · right
        rcases Nat.eq_zero_or_pos c with hc0 | hc0
        · rw [hc0] at hl ⊢
          have he : 0 + N - 1 = N - 1 := by omega
          rw [he, Nat.mod_eq_of_lt (by omega)] at hl
          rw [hl]
          have he2 : N - 1 + 1 = N := by omega
          rw [he2, Nat.mod_self]
        · have he : c + N - 1 = (c - 1) + N := by omega
          rw [he, Nat.add_mod_right,
            Nat.mod_eq_of_lt (show c - 1 < N by omega)] at hl
          rw [hl]
          have he2 : c - 1 + 1 = c := by omega
          rw [he2, Nat.mod_eq_of_lt hc]
  · rcases Nat.eq_zero_or_pos c with hc0 | hc0
    · rw [hc0]
      have he : 0 + N - 1 = N - 1 := by omega
      rw [he, Nat.mod_eq_of_lt (by omega)]
      omega
    · have he : c + N - 1 = (c - 1) + N := by omega
      rw [he, Nat.add_mod_right,
        Nat.mod_eq_of_lt (show c - 1 < N by omega)]
      omega

theorem ring_adjacency_witness :
    leftChopstick 0 = 0 ∧ rightChopstick 5 0 = (0 + 1) % 5 ∧
    ((leftChopstick 0 = 0 ∨ rightChopstick 5 0 = 0) ↔
      ((0 : Nat) = 0 ∨ (0 : Nat) = (0 + 5 - 1) % 5)) ∧
    (0 : Nat) ≠ (0 + 5 - 1) % 5 :=
  ring_adjacency 5 (by omega) 0 (by omega) 0 (by omega)

/-- C5: no two ring-adjacent philosophers are simultaneously eating in any
reachable state: both would have to hold their shared chopstick
`(i + 1) % N`. -/
theorem no_adjacent_eating (N : Nat) (hN : 2 ≤ N) (s : Sys)
    (hs : Reachable N s) (i : Nat) (hi : i < N) :
    ¬ (s.phase i = Phase.eating ∧
        s.phase ((i + 1) % N) = Phase.eating) := by
  rintro ⟨hei, hen⟩
  have hInv := reachable_sysInv N hN s hs
  have hj : (i + 1) % N < N := Nat.mod_lt _ (by omega)
  have h1 : holdsChopstick N i (s.phase i) ((i + 1) % N) = true := by
    rw [hei]
    simp [holdsChopstick, rightChopstick]
  have h2 : holdsChopstick N ((i + 1) % N) (s.phase ((i + 1) % N))
      ((i + 1) % N) = true := by
    rw [hen]
    simp [holdsChopstick, leftChopstick]
  have heq := hInv.2 ((i + 1) % N) i ((i + 1) % N) hi hj h1 h2
  have hne : i ≠ (i + 1) % N := by
    have hlr := left_ne_right N i hN hi
    simpa [leftChopstick, rightChopstick] using hlr
  exact hne heq

theorem no_adjacent_eating_witness :
    ¬ (init.phase 0 = Phase.eating ∧
        init.phase ((0 + 1) % 5) = Phase.eating) :=
  no_adjacent_eating 5 (by omega) init Reachable.init 0 (by omega)

/-- C6: after eating, the two consecutive release steps of the loop body
put down the left chopstick and then the right one; immediately after them
the philosopher is back to thinking, holds nothing, and both of its
chopsticks are available again for its neighbors. -/
theorem release_restores (N : Nat) (hN : 2 ≤ N) (i : Nat) (hi : i < N)
    (s s' s'' : Sys) (a1 a2 : Act)
    (hp : s.phase i = Phase.eating)
    (h1 : step N s i = some (a1, s'))
    (h2 : step N s' i = some (a2, s'')) :
    a1 = Act.release (leftChopstick i) ∧
    s'.avail (leftChopstick i) = true ∧
    a2 = Act.release (rightChopstick N i) ∧
    s''.phase i = Phase.thinking ∧
    s''.avail (leftChopstick i) = true ∧
    s''.avail (rightChopstick N i) = true ∧
    (∀ c, holdsChopstick N i (s''.phase i) c = false) := by
  simp only [step, hp, Option.some.injEq, Prod.mk.injEq] at h1
  obtain ⟨ha1, hs1⟩ := h1
  have hp' : s'.phase i = Phase.releasedLeft := by
    rw [← hs1]
    exact upd_self _ _ _
  have hav' : s'.avail (leftChopstick i) = true := by
    rw [← hs1]
    exact upd_self _ _ _
  simp only [step, hp', Option.some.injEq, Prod.mk.injEq] at h2
  obtain ⟨ha2, hs2⟩ := h2
  have hph'' : s''.phase i = Phase.thinking := by
    rw [← hs2]
    exact upd_self _ _ _
  refine ⟨ha1.symm, hav', ha2.symm, hph'', ?_, ?_, ?_⟩
  · rw [← hs2]
    have hlr := left_ne_right N i hN hi
    show upd s'.avail (rightChopstick N i) true (leftChopstick i) = true
    rw [upd_ne _ _ _ _ hlr]
    exact hav'
  · rw [← hs2]
    exact upd_self _ _ _
  · intro c
    rw [hph'']
    rfl

theorem release_restores_witness :
    w4.avail 0 = true ∧ w5.phase 0 = Phase.thinking ∧
      w5.avail 0 = true ∧ w5.avail 1 = true := by
  have h := release_restores 5 (by omega) 0 (by omega) w3 w4 w5
    (Act.release 0) (Act.release 1) rfl step_w3_0 step_w4_0
  exact ⟨h.2.1, h.2.2.2.1, h.2.2.2.2.1, h.2.2.2.2.2.1⟩

/-- C7: the loop never commits a protocol violation: a `release` is always
performed by the current holder of the semaphore (which is then at count
0), and an `acquire` never targets a chopstick the philosopher already
holds (and only fires when the semaphore is at count 1). -/
theorem no_protocol_violation (N : Nat) (hN : 2 ≤ N) (s : Sys)
    (hs : Reachable N s) (i : Nat) (hi : i < N) (a : Act) (s' : Sys)
    (h : step N s i = some (a, s')) (c : Nat) :
    (a = Act.release c →
      holdsChopstick N i (s.phase i) c = true ∧ s.avail c = false) ∧
    (a = Act.acquire c →
      holdsChopstick N i (s.phase i) c = false ∧ s.avail c = true) := by
  have hInv := reachable_sysInv N hN s hs
  rcases hp : s.phase i with _ | _ | _ | _ | _
  · simp only [step, hp, Option.some.injEq, Prod.mk.injEq] at h
    rw [← h.1]
    exact ⟨fun hr => Act.noConfusion hr, fun hr => Act.noConfusion hr⟩
  · rcases hav : s.avail (firstChopstick N i) with _ | _
    · simp [step, hp, hav] at h
    · simp only [step, hp, hav, if_true, Option.some.injEq,
        Prod.mk.injEq] at h
      rw [← h.1]
      constructor
      · intro hr
        exact Act.noConfusion hr
      · intro hr
        have hc : firstChopstick N i = c := by
          simpa using hr
        rw [← hc]
        exact ⟨rfl, hav⟩
  · rcases hav : s.avail (secondChopstick N i) with _ | _
    · simp [step, hp, hav] at h
    · simp only [step, hp, hav, if_true, Option.some.injEq,
        Prod.mk.injEq] at h
      rw [← h.1]
      constructor
      · intro hr
        exact Act.noConfusion hr
      · intro hr
        have hc : secondChopstick N i = c := by
          simpa using hr
        rw [← hc]
        refine ⟨?_, hav⟩
        have hne := first_ne_second N i hN hi
        simp [holdsChopstick]
        omega
  · simp only [step, hp, Option.some.injEq, Prod.mk.injEq] at h
    rw [← h.1]
    constructor
    · intro hr
      have hc : leftChopstick i = c := by
        simpa using hr
      rw [← hc]
      constructor
      · simp [holdsChopstick]
      · refine (hInv.1 (leftChopstick i)).mpr ⟨i, hi, ?_⟩
        rw [hp]
        simp [holdsChopstick]
    · intro hr
      exact Act.noConfusion hr
  · simp only [step, hp, Option.some.injEq, Prod.mk.injEq] at h
    rw [← h.1]
    constructor
    · intro hr
      have hc : rightChopstick N i = c := by
        simpa using hr
      rw [← hc]
      constructor
      · simp [holdsChopstick]
      · refine (hInv.1 (rightChopstick N i)).mpr ⟨i, hi, ?_⟩
        rw [hp]
        simp [holdsChopstick]
    · intro hr
      exact Act.noConfusion hr

theorem no_protocol_violation_witness :
    holdsChopstick 5 0 (w3.phase 0) 0 = true ∧ w3.avail 0 = false := by
  have h := no_protocol_violation 5 (by omega) w3 reachable_w3 0 (by omega)
    (Act.release 0) w4 step_w3_0 0
  exact h.1 rfl

/-- The ids for which `main` constructs and launches a philosopher thread
(`src/main.cpp` lines 197-199): one per id `0..n-1`, with no validation of
the configuration whatsoever. -/
def spawnedAgents (n : Nat) : List Nat := List.range n

/-- A valid configuration in the sense of the specification: at least two
agents and positive think and eat durations. -/
def validConfig (n think eat : Nat) : Prop := 2 ≤ n ∧ 0 < think ∧ 0 < eat

/-- C8 counterexample: an invalid configuration (agent count 1 < 2) is not
rejected by the orchestrator: `main` contains no configuration check, so
with `NUM_PHILOSOPHERS` set to 1 it would still launch an agent loop. -/
theorem config_not_rejected :
    ¬ validConfig 1 THINK_DURATION_MS EAT_DURATION_MS ∧
      spawnedAgents 1 = [0] ∧ spawnedAgents 1 ≠ [] := by
  refine ⟨fun hv => absurd hv.1 (by omega), rfl, by decide⟩

/-- C8 (amended): the program has no configuration validation; instead its
configuration is fixed at compile time (`NUM_PHILOSOPHERS = 5` agents,
3000 ms think and eat durations), this fixed configuration satisfies the
validity condition (`N ≥ 2`, positive durations), and `main`
unconditionally launches one agent loop per id for whatever agent count is
compiled in. -/
theorem config_fixed_and_valid :
    validConfig NUM_PHILOSOPHERS THINK_DURATION_MS EAT_DURATION_MS ∧
    spawnedAgents NUM_PHILOSOPHERS = [0, 1, 2, 3, 4] ∧
    spawnedAgents 1 = [0] := by
  refine ⟨⟨by decide, by decide, by decide⟩, by decide, rfl⟩

/-- C9: the orchestrator (`main`, lines 189-199) uses the single global
chopstick ring of `NUM_PHILOSOPHERS = 5` semaphores, all initially
available, and constructs exactly `NUM_PHILOSOPHERS` philosopher threads
with pairwise-distinct ids `0..4`. -/
theorem orchestration_init :
    NUM_PHILOSOPHERS = 5 ∧
    spawnedAgents NUM_PHILOSOPHERS = [0, 1, 2, 3, 4] ∧
    (spawnedAgents NUM_PHILOSOPHERS).Nodup ∧
    (spawnedAgents NUM_PHILOSOPHERS).length = NUM_PHILOSOPHERS ∧
    (init.avail 0 = true ∧ init.avail 1 = true ∧ init.avail 2 = true ∧
      init.avail 3 = true ∧ init.avail 4 = true) := by
  exact ⟨rfl, by decide, by decide, by decide, rfl, rfl, rfl, rfl, rfl⟩

/-- C10: both chopstick indices used by philosopher `i` are in bounds for
the `chopsticks` array of size `NUM_PHILOSOPHERS`. -/
theorem chopstick_indices_in_bounds (i : Nat)
    (hi : i < NUM_PHILOSOPHERS) :
    leftChopstick i < NUM_PHILOSOPHERS ∧
      rightChopstick NUM_PHILOSOPHERS i < NUM_PHILOSOPHERS := by
  constructor
  · exact hi
  · exact rightChopstick_lt NUM_PHILOSOPHERS i (by decide)

theorem chopstick_indices_in_bounds_witness :
    3 < NUM_PHILOSOPHERS ∧ leftChopstick 3 < NUM_PHILOSOPHERS ∧
      rightChopstick NUM_PHILOSOPHERS 3 < NUM_PHILOSOPHERS :=
  ⟨by decide, (chopstick_indices_in_bounds 3 (by decide)).1,
    (chopstick_indices_in_bounds 3 (by decide)).2⟩
